import Mathlib

/-!
Shallow embedding of the transpiler pass `Optimize1qGatesDecomposition`
(file `qiskit/transpiler/passes/optimization/optimize_1q_decomposition.py`).

The pass has two parts:

* the constructor (`__init__`) selects, from the external table
  `ONE_QUBIT_EULER_BASIS_GATES`, the Euler bases whose gate sets fit inside
  the requested target basis, pruning bases whose gate set stands in a
  subset relation with an already-accepted one;
* `run` collects maximal single-qubit runs from the DAG, composes each
  run's operator, asks every selected decomposer for a candidate circuit,
  picks the shortest candidate (ties to the earliest decomposer) and
  substitutes it when it is strictly shorter than the run, or when the run
  is a single "special" u3 gate and the candidate does not start with u3.

Operator representation and multiplication, the decomposers themselves and
the DAG primitives are external collaborators, so the embedding is generic:
operators live in an arbitrary monoid `M` (matrix product is the monoid
product, `1` is the 2x2 identity matrix `np.eye(2)`), a decomposer is an
arbitrary function from operators to circuits, and the DAG is modelled as
the sequence of nodes along a wire, where maximal blocks of single-qubit
nodes are exactly the runs returned by `collect_1q_runs`.
-/

/-! ### Basis selector (the constructor) -/

/-- One entry of the external `ONE_QUBIT_EULER_BASIS_GATES` table: an Euler
basis name together with its fixed set of gate names.  Dictionary keys are
unique, so looking the table up at `entry.name` returns exactly
`entry.gates`; the embedding therefore stores the gate set in the entry. -/
structure EulerBasisEntry where
  name : String
  gates : Finset String
deriving DecidableEq

/-- The inner loop of the constructor, which confronts one qualifying basis
`b` with the accumulated list of accepted bases: an accepted basis whose
gate set is contained in the gate set of `b` is removed; if instead the
gate set of `b` is contained in that of an accepted basis, the loop breaks
(the rest of the accepted list is kept unchanged and `b` is not appended);
if the loop runs to the end, `b` is appended. -/
def insertBasis (b : EulerBasisEntry) : List EulerBasisEntry → List EulerBasisEntry
  | [] => [b]
  | a :: rest =>
    if a.gates ⊆ b.gates then insertBasis b rest
    else if b.gates ⊆ a.gates then a :: rest
    else a :: insertBasis b rest

/-- The whole basis-selection loop of the constructor: every table entry
whose gate set is a subset of the target basis is offered to
`insertBasis`; the others are discarded. -/
def selectBases (table : List EulerBasisEntry) (target : Finset String) :
    List EulerBasisEntry :=
  table.foldl (fun acc e => if e.gates ⊆ target then insertBasis e acc else acc) []

/-- Two basis entries are free of subset relations in either direction. -/
def NoSubsetPair (a b : EulerBasisEntry) : Prop :=
  ¬ a.gates ⊆ b.gates ∧ ¬ b.gates ⊆ a.gates

/-! ### Operations, circuits and decomposers -/

/-- A single-qubit operation: its gate name, its parameter list, its matrix
(`op.to_matrix()`), and whether the underlying object is an instance of
`U3Gate` (the code tests this with `isinstance`, which is independent of
the `name` string compared against the literal "u3" later). Parameters are
modelled as rationals: IEEE-754 doubles are exact rationals, and the only
arithmetic the pass performs on them is comparison against constants. -/
structure Op (M : Type) where
  name : String
  params : List ℚ
  mat : M
  isU3 : Bool
deriving DecidableEq

/-- A candidate circuit is an ordered list of operations. -/
abbrev Circuit (M : Type) := List (Op M)

/-- A decomposer is an external collaborator: a function from an operator
to a candidate circuit in its Euler basis. -/
abbrev Decomposer (M : Type) := M → Circuit M

/-- The absolute tolerance `atol=1e-12` of the `np.isclose` call. -/
def atol : ℚ := 1 / 1000000000000

/-- The value `np.pi / 2` as computed by the code: `np.pi` is the IEEE-754
double closest to pi, namely `884279719003555 / 2^48`, and halving it is
exact, giving `884279719003555 / 2^49`. -/
def npPiHalf : ℚ := 884279719003555 / 562949953421312

/-- The test `np.isclose(float(params[0]), [0, np.pi/2], atol=1e-12,
rtol=0).any()`: the first parameter is within absolute tolerance of 0 or
of `np.pi / 2`.  With `rtol=0` the `np.isclose` bound degenerates to the
absolute tolerance alone. -/
def firstParamNearSpecial {M : Type} (op : Op M) : Bool :=
  match op.params with
  | [] => false
  | p :: _ => decide (|p| ≤ atol ∨ |p - npPiHalf| ≤ atol)

/-- The condition that sets `single_u3 = True` for a length-1 run:
`isinstance(run[0].op, U3Gate)` together with the closeness test. -/
def isSingleU3Special {M : Type} (op : Op M) : Bool :=
  op.isU3 && firstParamNearSpecial op

/-- The composed operator of a sequence of operations, as computed by
`operator = Operator(run[0].op)` followed by `operator =
operator.compose(gate.op)` over the rest of the run; `Operator.compose`
left-multiplies by the later operation's matrix.  An empty sequence (never
produced for a run, but a candidate circuit may be empty) composes to the
identity. -/
def composedOp {M : Type} [Monoid M] : List (Op M) → M
  | [] => 1
  | op :: rest => rest.foldl (fun acc g => g.mat * acc) op.mat

/-- The candidate circuits `new_circs`: one per selected decomposer, each
invoked on the composed operator of the run, in the selector's order. -/
def candidates {M : Type} [Monoid M] (basis : List (Decomposer M))
    (run : List (Op M)) : List (Circuit M) :=
  basis.map (fun d => d (composedOp run))

/-- Python's `min(new_circs, key=len)`: fold keeping the current best and
replacing it only on a strictly smaller length, so the first circuit with
the minimal length wins. -/
def minByLen {M : Type} : Circuit M → List (Circuit M) → Circuit M
  | best, [] => best
  | best, c :: cs => minByLen (if c.length < best.length then c else best) cs

/-- The name of a candidate circuit's first operation,
`new_circ.data[0][0].name`; modelled through `head?` (the code only ever
reaches this expression on a nonempty candidate, see the safety claim). -/
def firstName {M : Type} (c : Circuit M) : Option String :=
  c.head?.map Op.name

/-- The acceptance test `len(run) > len(new_circ) or (single_u3 and
new_circ.data[0][0].name != 'u3')`. -/
def accepts {M : Type} (run c : Circuit M) (specialFlag : Bool) : Prop :=
  c.length < run.length ∨ (specialFlag = true ∧ firstName c ≠ some "u3")

instance {M : Type} (run c : Circuit M) (s : Bool) : Decidable (accepts run c s) := by
  unfold accepts
  infer_instance

/-- The substitution step on the collected candidates: if no candidate was
produced the run is untouched (`if new_circs:`); otherwise the stable
minimum-by-length candidate replaces the run exactly when `accepts`
holds. -/
def substitutionStep {M : Type} [Monoid M] (basis : List (Decomposer M))
    (run : Circuit M) (specialFlag : Bool) : Circuit M :=
  match candidates basis run with
  | [] => run
  | c0 :: cs =>
    if accepts run (minByLen c0 cs) specialFlag then minByLen c0 cs else run

/-- The per-run body of `Optimize1qGatesDecomposition.run`, returning the
operations that occupy the run's place afterwards: an empty list means the
run's nodes were removed, the original run means it was left untouched, a
candidate circuit means it was substituted.  A length-1 run is removed if
its single operation has at least one parameter and its matrix is exactly
the 2x2 identity; otherwise it proceeds only under the `single_u3` flag;
longer runs always proceed with the flag unset.  (Runs delivered by
`collect_1q_runs` are nonempty; the `[]` case is unreachable.) -/
def processRun {M : Type} [Monoid M] [DecidableEq M]
    (basis : List (Decomposer M)) : List (Op M) → List (Op M)
  | [] => []
  | op :: rest =>
    if (op :: rest).length ≤ 1 then
      if op.params ≠ [] ∧ op.mat = 1 then []
      else if isSingleU3Special op then substitutionStep basis (op :: rest) true
      else op :: rest
    else substitutionStep basis (op :: rest) false

/-! ### The DAG, modelled as a wire -/

/-- A node on a wire: a single-qubit operation, or any other node (a
multi-qubit gate, a barrier, ...) identified by an opaque tag.  Maximal
blocks of `oneQ` nodes are exactly the runs of `collect_1q_runs`. -/
inductive Node (M : Type) where
  | oneQ (op : Op M)
  | other (tag : ℕ)
deriving DecidableEq

/-- Split a wire into maximal blocks: a maximal run of single-qubit
operations becomes `Sum.inl`, every other node becomes `Sum.inr`. -/
def toBlocks {M : Type} : List (Node M) → List (List (Op M) ⊕ ℕ)
  | [] => []
  | .other k :: rest => .inr k :: toBlocks rest
  | .oneQ o :: rest =>
    match toBlocks rest with
    | .inl r :: bs => .inl (o :: r) :: bs
    | bs => .inl [o] :: bs

/-- Reassemble a wire from blocks. -/
def ofBlocks {M : Type} : List (List (Op M) ⊕ ℕ) → List (Node M)
  | [] => []
  | .inl r :: bs => r.map .oneQ ++ ofBlocks bs
  | .inr k :: bs => .other k :: ofBlocks bs

/-- One invocation of the pass body on a wire: every maximal single-qubit
run is processed independently by `processRun` and its result takes the
run's place; all other nodes are untouched. -/
def optimizeNodes {M : Type} [Monoid M] [DecidableEq M]
    (basis : List (Decomposer M)) (dag : List (Node M)) : List (Node M) :=
  ofBlocks ((toBlocks dag).map (fun b =>
    match b with
    | .inl r => .inl (processRun basis r)
    | .inr k => .inr k))

/-- The pass entry point `run`: with no selected basis (`if not
self.basis:`, covering both `None` and the empty list) the DAG is returned
unchanged; otherwise every run is processed. -/
def optimize {M : Type} [Monoid M] [DecidableEq M]
    (basis : List (Decomposer M)) (dag : List (Node M)) : List (Node M) :=
  if basis.isEmpty then dag else optimizeNodes basis dag

/-! ### Concrete operator instantiation for the correctness invariant -/

/-- The concrete operator type of the pass: 2x2 complex matrices. -/
abbrev Mat := Matrix (Fin 2) (Fin 2) ℂ

/-- Entrywise equality of two operators up to a global phase, within an
absolute tolerance: there is a unit-modulus complex scalar `z` such that
every entry of `A` is within `eps` of the corresponding entry of `z • B`.
This is the decomposer contract the specification declares. -/
def PhaseEquivWithin (eps : ℝ) (A B : Mat) : Prop :=
  ∃ z : ℂ, Complex.abs z = 1 ∧ ∀ i j, Complex.abs (A i j - z * B i j) ≤ eps

/-! ### Concrete fixtures used by witnesses and counterexamples -/

/-- Table with two distinct basis names carrying identical gate sets. -/
def cexTable : List EulerBasisEntry :=
  [⟨"A", {"g"}⟩, ⟨"B", {"g"}⟩]

/-- A gate with no parameters whose operator squares to the identity,
playing the role of an `XGate` in the integer operator model. -/
def xOp : Op ℤ := ⟨"x", [], -1, false⟩

/-- The gate `u3(0, 0, 0)`: an instance of the u3 kind, three parameters,
and a matrix exactly equal to the identity. -/
def u3ZeroOp : Op ℤ := ⟨"u3", [0, 0, 0], 1, true⟩

/-- A decomposer in the style of the `U3` Euler basis: it always emits one
`u3` gate; its output's composed operator is exactly its input. -/
def u3Dec : Decomposer ℤ := fun u => [⟨"u3", [0, 0, 0], u, true⟩]

/-- A decomposer emitting a single generic one-gate circuit whose composed
operator is exactly its input. -/
def gDec : Decomposer ℤ := fun u => [⟨"g", [], u, false⟩]

/-- A decomposer emitting a two-gate circuit whose composed operator is
exactly its input. -/
def gDec2 : Decomposer ℤ := fun u => [⟨"h", [], 1, false⟩, ⟨"g", [], u, false⟩]

/-- A wire holding one maximal run of two `x`-like gates: their composed
operator is the identity. -/
def cexDag : List (Node ℤ) := [Node.oneQ xOp, Node.oneQ xOp]

/-- The identity decomposer over concrete 2x2 complex matrices: one
generic gate carrying exactly the input matrix. -/
def idDecMat : Decomposer Mat := fun u => [⟨"g", [], u, false⟩]

/-- A parameterless operation whose matrix is the identity matrix. -/
def matOpOne : Op Mat := ⟨"a", [], 1, false⟩

/-- A u3-kind gate whose first parameter (4) is far from both 0 and pi/2
and whose matrix is not the identity. -/
def u3FarOp : Op ℤ := ⟨"u3", [4, 0, 0], 5, true⟩

/-- A u3-kind gate whose first parameter is 0 (so the special flag is set)
but whose matrix is not the identity. -/
def u3NearOp : Op ℤ := ⟨"u3", [0, 0, 0], 5, true⟩

/-! ### Lemmas about the basis selector -/

theorem mem_insertBasis {x b : EulerBasisEntry} :
    ∀ {l : List EulerBasisEntry}, x ∈ insertBasis b l → x ∈ l ∨ x = b := by
  intro l
  induction l with
  | nil =>
    intro h
    simp only [insertBasis, List.mem_singleton] at h
    exact Or.inr h
  | cons a rest ih =>
    intro h
    by_cases h1 : a.gates ⊆ b.gates
    · simp only [insertBasis, if_pos h1] at h
      rcases ih h with h2 | h2
      · exact Or.inl (List.mem_cons_of_mem _ h2)
      · exact Or.inr h2
    · by_cases h2 : b.gates ⊆ a.gates
      · simp only [insertBasis, if_neg h1, if_pos h2] at h
        exact Or.inl h
      · simp only [insertBasis, if_neg h1, if_neg h2] at h
        rcases List.mem_cons.mp h with h3 | h3
        · exact Or.inl (by simp [h3])
        · rcases ih h3 with h4 | h4
          · exact Or.inl (List.mem_cons_of_mem _ h4)
          · exact Or.inr h4

theorem pairwise_insertBasis {b : EulerBasisEntry} :
    ∀ {l : List EulerBasisEntry}, l.Pairwise NoSubsetPair →
      (insertBasis b l).Pairwise NoSubsetPair := by
  intro l
  induction l with
  | nil =>
    intro _
    simp [insertBasis]
  | cons a rest ih =>
    intro h
    rcases List.pairwise_cons.mp h with ⟨ha, hrest⟩
    by_cases h1 : a.gates ⊆ b.gates
    · simp only [insertBasis, if_pos h1]
      exact ih hrest
    · by_cases h2 : b.gates ⊆ a.gates
      · simp only [insertBasis, if_neg h1, if_pos h2]
        exact h
      · simp only [insertBasis, if_neg h1, if_neg h2]
        refine List.pairwise_cons.mpr ⟨?_, ih hrest⟩
        intro x hx
        rcases mem_insertBasis hx with h3 | h3
        · exact ha x h3
        · subst h3
          exact ⟨h1, h2⟩

theorem not_mem_insertBasis {a b : EulerBasisEntry} (hsub : a.gates ⊆ b.gates)
    (hne : a ≠ b) :
    ∀ {l : List EulerBasisEntry}, l.Pairwise NoSubsetPair → a ∉ insertBasis b l := by
  intro l
  induction l with
  | nil =>
    intro _ h
    simp only [insertBasis, List.mem_singleton] at h
    exact hne h
  | cons x rest ih =>
    intro hp hmem
    rcases List.pairwise_cons.mp hp with ⟨hx, hrest⟩
    by_cases h1 : x.gates ⊆ b.gates
    · simp only [insertBasis, if_pos h1] at hmem
      exact ih hrest hmem
    · by_cases h2 : b.gates ⊆ x.gates
      · simp only [insertBasis, if_neg h1, if_pos h2] at hmem
        rcases List.mem_cons.mp hmem with h3 | h3
        · subst h3
          exact h1 hsub
        · exact (hx a h3).2 (hsub.trans h2)
      · simp only [insertBasis, if_neg h1, if_neg h2] at hmem
        rcases List.mem_cons.mp hmem with h3 | h3
        · subst h3
          exact h1 hsub
        · exact ih hrest h3

theorem pairwise_selectStep (target : Finset String) :
    ∀ (l : List EulerBasisEntry) (acc : List EulerBasisEntry),
      acc.Pairwise NoSubsetPair →
      (l.foldl (fun acc e => if e.gates ⊆ target then insertBasis e acc else acc)
        acc).Pairwise NoSubsetPair := by
  intro l
  induction l with
  | nil =>
    intro acc h
    simpa using h
  | cons e rest ih =>
    intro acc h
    simp only [List.foldl_cons]
    apply ih
    by_cases he : e.gates ⊆ target
    · rw [if_pos he]
      exact pairwise_insertBasis h
    · rw [if_neg he]
      exact h

theorem not_mem_foldl_insert (target : Finset String) {a : EulerBasisEntry} :
    ∀ (l : List EulerBasisEntry) (acc : List EulerBasisEntry), a ∉ acc →
      (∀ x ∈ l, a ≠ x) →
      a ∉ l.foldl (fun acc e => if e.gates ⊆ target then insertBasis e acc else acc)
        acc := by
  intro l
  induction l with
  | nil =>
    intro acc h _
    simpa using h
  | cons e rest ih =>
    intro acc hacc hne
    simp only [List.foldl_cons]
    apply ih
    · by_cases he : e.gates ⊆ target
      · rw [if_pos he]
        intro hmem
        rcases mem_insertBasis hmem with h | h
        · exact hacc h
        · exact hne e (List.mem_cons_self e rest) h
      · rw [if_neg he]
        exact hacc
    · intro x hx
      exact hne x (List.mem_cons_of_mem _ hx)

/-- C3: for every table of known Euler bases and every configured set of
allowed gate names, the list of bases selected at construction time
contains no two bases whose gate-name sets stand in a subset relation in
either direction. -/
theorem selected_bases_no_subset_pair (table : List EulerBasisEntry)
    (target : Finset String) :
    (selectBases table target).Pairwise NoSubsetPair := by
  unfold selectBases
  exact pairwise_selectStep target table [] List.Pairwise.nil

/-- C4 counterexample: with two known bases "A" and "B" enumerated in this
order and carrying the identical gate set, both qualifying under the
target, the selection keeps the later basis "B" and the first-enumerated
basis "A" is not in the selected set — the opposite of the claim that the
basis evaluated first is kept and later equal ones are discarded. -/
theorem first_equal_basis_not_kept :
    selectBases cexTable {"g"} = [⟨"B", {"g"}⟩] ∧
      (⟨"A", {"g"}⟩ : EulerBasisEntry) ∉ selectBases cexTable {"g"} := by
  decide

/-- C4 (amended): when two known Euler bases with identical gate-name sets
both qualify under the configured gate-name set, the basis evaluated
EARLIER in the enumeration order is removed from the accepted list when
the later one is processed (its gate set is a subset of the later one's),
so the earlier basis is not in the selected set; the basis evaluated last
with that gate set is the one kept. -/
theorem earlier_equal_basis_removed
    (pre mid post : List EulerBasisEntry) (e1 e2 : EulerBasisEntry)
    (target : Finset String) (hq2 : e2.gates ⊆ target)
    (heq : e1.gates = e2.gates) (hne : e1 ≠ e2)
    (hpost : ∀ x ∈ post, e1 ≠ x) :
    e1 ∉ selectBases ((pre ++ e1 :: mid) ++ e2 :: post) target := by
  unfold selectBases
  rw [List.foldl_append, List.foldl_cons, if_pos hq2]
  apply not_mem_foldl_insert
  · apply not_mem_insertBasis ?_ hne
    · exact pairwise_selectStep target _ [] List.Pairwise.nil
    · rw [heq]
  · exact hpost

/-- Witness for the amended C4 at the concrete two-entry table. -/
theorem earlier_equal_basis_removed_witness :
    (⟨"A", {"g"}⟩ : EulerBasisEntry) ∉ selectBases cexTable {"g"} :=
  earlier_equal_basis_removed [] [] [] ⟨"A", {"g"}⟩ ⟨"B", {"g"}⟩ {"g"}
    (by decide) (by decide) (by decide) (by simp)

/-! ### Lemmas about the run optimizer -/

theorem accepts_false_iff {M : Type} (run c : Circuit M) :
    accepts run c false ↔ c.length < run.length := by
  unfold accepts
  simp

theorem accepts_true_iff {M : Type} (run c : Circuit M) :
    accepts run c true ↔ (c.length < run.length ∨ firstName c ≠ some "u3") := by
  unfold accepts
  simp

theorem minByLen_split {M : Type} :
    ∀ (cs : List (Circuit M)) (b : Circuit M),
      ∃ pre post, b :: cs = pre ++ minByLen b cs :: post ∧
        (∀ x ∈ pre, (minByLen b cs).length < x.length) ∧
        (∀ x ∈ post, (minByLen b cs).length ≤ x.length) := by
  intro cs
  induction cs with
  | nil =>
    intro b
    exact ⟨[], [], rfl, by simp, by simp⟩
  | cons c cs ih =>
    intro b
    by_cases h : c.length < b.length
    · rcases ih c with ⟨pre, post, hsplit, hpre, hpost⟩
      have hrc : (minByLen c cs).length ≤ c.length := by
        rcases pre with _ | ⟨p, ps⟩
        · simp only [List.nil_append, List.cons.injEq] at hsplit
          exact le_of_eq (congrArg List.length hsplit.1.symm)
        · simp only [List.cons_append, List.cons.injEq] at hsplit
          have hlt := hpre p (List.mem_cons_self p ps)
          rw [← hsplit.1] at hlt
          exact le_of_lt hlt
      refine ⟨b :: pre, post, ?_, ?_, ?_⟩
      · simp only [minByLen, if_pos h, List.cons_append]
        rw [← hsplit]
      · intro x hx
        simp only [minByLen, if_pos h]
        rcases List.mem_cons.mp hx with h1 | h1
        · subst h1
          exact lt_of_le_of_lt hrc h
        · exact hpre x h1
      · intro x hx
        simp only [minByLen, if_pos h]
        exact hpost x hx
    · rcases ih b with ⟨pre, post, hsplit, hpre, hpost⟩
      rcases pre with _ | ⟨p, ps⟩
      · simp only [List.nil_append, List.cons.injEq] at hsplit
        refine ⟨[], c :: cs, ?_, by simp, ?_⟩
        · simp only [minByLen, if_neg h, List.nil_append]
          rw [← hsplit.1]
        · intro x hx
          simp only [minByLen, if_neg h]
          rcases List.mem_cons.mp hx with h1 | h1
          · subst h1
            rw [← hsplit.1]
            exact not_lt.mp h
          · rw [← hsplit.1]
            have hx2 : x ∈ post := by
              rw [← hsplit.2]
              exact h1
            have := hpost x hx2
            rw [← hsplit.1] at this
            exact this
      · simp only [List.cons_append, List.cons.injEq] at hsplit
        refine ⟨b :: c :: ps, post, ?_, ?_, ?_⟩
        · simp only [minByLen, if_neg h, List.cons_append]
          rw [← hsplit.2]
        · intro x hx
          simp only [minByLen, if_neg h]
          rcases List.mem_cons.mp hx with h1 | h1
          · subst h1
            have hlt := hpre p (List.mem_cons_self p ps)
            rw [← hsplit.1] at hlt
            exact hlt
          · rcases List.mem_cons.mp h1 with h2 | h2
            · subst h2
              have hlt := hpre p (List.mem_cons_self p ps)
              rw [← hsplit.1] at hlt
              exact lt_of_lt_of_le hlt (not_lt.mp h)
            · exact hpre x (List.mem_cons_of_mem _ h2)
        · intro x hx
          simp only [minByLen, if_neg h]
          exact hpost x hx

theorem minByLen_mem {M : Type} (cs : List (Circuit M)) (b : Circuit M) :
    minByLen b cs ∈ b :: cs := by
  rcases minByLen_split cs b with ⟨pre, post, hsplit, -, -⟩
  rw [hsplit]
  exact List.mem_append.mpr (Or.inr (List.mem_cons_self _ _))

/-! ### Claims about the run optimizer -/

/-- C1: for every run whose chosen candidate the optimizer accepts for
substitution, under the decomposer contract (every decomposer's output
circuit composes, up to a global phase and within the tolerance, to the
matrix it was invoked on), the composed unitary effect of the replacement
candidate equals the composed unitary effect of the run's original
operations up to global phase within that tolerance: the chosen candidate
is one decomposer's output on exactly the run's composed operator. -/
theorem chosen_candidate_phase_equiv [DecidableEq Mat]
    (basis : List (Decomposer Mat)) (eps : ℝ)
    (hcontract : ∀ d ∈ basis, ∀ U : Mat, PhaseEquivWithin eps (composedOp (d U)) U)
    (run : List (Op Mat)) (c0 : Circuit Mat) (cs : List (Circuit Mat))
    (hc : candidates basis run = c0 :: cs)
    (_hsub : processRun basis run = minByLen c0 cs) :
    PhaseEquivWithin eps (composedOp (minByLen c0 cs)) (composedOp run) := by
  have hmem : minByLen c0 cs ∈ c0 :: cs := minByLen_mem cs c0
  rw [← hc] at hmem
  unfold candidates at hmem
  rcases List.mem_map.mp hmem with ⟨d, hd, hdc⟩
  rw [← hdc]
  exact hcontract d hd (composedOp run)

/-- Witness for C1: the one-gate identity decomposer satisfies the
contract with tolerance 0, and on a two-gate identity run its candidate is
accepted, so the conclusion holds at this concrete instance. -/
theorem chosen_candidate_phase_equiv_witness :
    PhaseEquivWithin 0 (composedOp (idDecMat (composedOp [matOpOne, matOpOne])))
      (composedOp [matOpOne, matOpOne]) := by
  classical
  refine chosen_candidate_phase_equiv [idDecMat] 0 ?_ [matOpOne, matOpOne]
    (idDecMat (composedOp [matOpOne, matOpOne])) [] rfl rfl
  intro d hd U
  rw [List.mem_singleton] at hd
  subst hd
  refine ⟨1, by simp, ?_⟩
  intro i j
  simp [idDecMat, composedOp]

/-- C7: for every processed run, the candidate list holds exactly one
candidate per selected decomposer, each invoked on the run's composed
operator in the selector's output order, and the chosen candidate is a
stable minimum by length: it occurs in the candidate list, every candidate
strictly before it is strictly longer, and every candidate after it is at
least as long. -/
theorem stable_min_selection {M : Type} [Monoid M]
    (basis : List (Decomposer M)) (run : List (Op M))
    (c0 : Circuit M) (cs : List (Circuit M))
    (hc : candidates basis run = c0 :: cs) :
    candidates basis run = basis.map (fun d => d (composedOp run)) ∧
      ∃ pre post, candidates basis run = pre ++ minByLen c0 cs :: post ∧
        (∀ x ∈ pre, (minByLen c0 cs).length < x.length) ∧
        (∀ x ∈ post, (minByLen c0 cs).length ≤ x.length) := by
  refine ⟨rfl, ?_⟩
  rw [hc]
  exact minByLen_split cs c0

/-- Witness for C7 at a two-decomposer basis whose second decomposer
returns the shorter candidate. -/
theorem stable_min_selection_witness :
    ∃ pre post,
      candidates [gDec2, gDec] [xOp] =
        pre ++ minByLen (gDec2 (composedOp [xOp])) [gDec (composedOp [xOp])] :: post ∧
      (∀ x ∈ pre,
        (minByLen (gDec2 (composedOp [xOp])) [gDec (composedOp [xOp])]).length <
          x.length) ∧
      (∀ x ∈ post,
        (minByLen (gDec2 (composedOp [xOp])) [gDec (composedOp [xOp])]).length ≤
          x.length) :=
  (stable_min_selection [gDec2, gDec] [xOp] (gDec2 (composedOp [xOp]))
    [gDec (composedOp [xOp])] rfl).2

/-- C2: for every processed run the chosen candidate is substituted if and
only if it is strictly shorter than the run, or the run is a length-1 run
with the special flag set and the candidate's first operation name is not
"u3"; otherwise the run is left untouched.  The first conjunct covers runs
of length at least 2 (special flag unset), the second covers special
length-1 runs. -/
theorem acceptance_condition {M : Type} [Monoid M] [DecidableEq M]
    (basis : List (Decomposer M)) (op : Op M) (rest : List (Op M))
    (c0 : Circuit M) (cs : List (Circuit M))
    (hc : candidates basis (op :: rest) = c0 :: cs) :
    (2 ≤ (op :: rest).length →
      processRun basis (op :: rest) =
        if (minByLen c0 cs).length < (op :: rest).length then minByLen c0 cs
        else op :: rest) ∧
    ((op :: rest).length = 1 → ¬(op.params ≠ [] ∧ op.mat = 1) →
      isSingleU3Special op = true →
      processRun basis (op :: rest) =
        if (minByLen c0 cs).length < (op :: rest).length ∨
            firstName (minByLen c0 cs) ≠ some "u3" then minByLen c0 cs
        else op :: rest) := by
  constructor
  · intro h2
    have hn : ¬ (op :: rest).length ≤ 1 := by omega
    simp only [processRun]
    rw [if_neg hn]
    unfold substitutionStep
    rw [hc]
    simp only [accepts_false_iff]
  · intro h1 hni hs
    have hl : (op :: rest).length ≤ 1 := by omega
    simp only [processRun]
    rw [if_pos hl, if_neg hni, if_pos hs]
    unfold substitutionStep
    rw [hc]
    simp only [accepts_true_iff]

/-- Witness for C2: a two-gate run with a strictly shorter candidate is
substituted by it. -/
theorem acceptance_condition_witness :
    processRun [u3Dec] [xOp, xOp] = u3Dec (composedOp [xOp, xOp]) := by
  have h := (acceptance_condition [u3Dec] xOp [xOp]
    (u3Dec (composedOp [xOp, xOp])) [] rfl).1 (by decide)
  rw [h]
  decide

/-- C5: a run of exactly one operation whose matrix is exactly the
identity and which has at least one parameter is removed from the graph:
the run's replacement is the empty sequence, whatever the selected
decomposers are (so no substitution is attempted for it). -/
theorem single_identity_removed {M : Type} [Monoid M] [DecidableEq M]
    (basis : List (Decomposer M)) (op : Op M)
    (hp : op.params ≠ []) (hm : op.mat = 1) :
    processRun basis [op] = [] := by
  simp only [processRun]
  rw [if_pos (by simp), if_pos ⟨hp, hm⟩]

/-- Witness for C5 at a concrete one-parameter identity gate. -/
theorem single_identity_removed_witness :
    processRun [u3Dec] [(⟨"rz", [0], 1, false⟩ : Op ℤ)] = [] :=
  single_identity_removed [u3Dec] ⟨"rz", [0], 1, false⟩ (by decide) (by decide)

/-- C6: the special flag of a length-1 run holds exactly when the single
operation is of the u3 kind and its first parameter is within absolute
tolerance 1e-12 (relative tolerance 0) of 0 or of pi/2 (the double value
`np.pi / 2`); and a length-1 run that is neither removed as an identity
nor special is left untouched. -/
theorem single_special_characterization {M : Type} [Monoid M] [DecidableEq M]
    (basis : List (Decomposer M)) (op : Op M) :
    (isSingleU3Special op = true ↔
      op.isU3 = true ∧
        ∃ p, op.params.head? = some p ∧ (|p| ≤ atol ∨ |p - npPiHalf| ≤ atol)) ∧
    (¬(op.params ≠ [] ∧ op.mat = 1) → isSingleU3Special op = false →
      processRun basis [op] = [op]) := by
  constructor
  · unfold isSingleU3Special firstParamNearSpecial
    cases hp : op.params with
    | nil =>
      simp
    | cons p l =>
      simp [Bool.and_eq_true, decide_eq_true_eq]
  · intro hni hs
    have hs2 : ¬ isSingleU3Special op = true := by
      simp [hs]
    simp only [processRun]
    rw [if_pos (by simp), if_neg hni, if_neg hs2]

/-- Witness for C6: a u3 gate with first parameter 4 is not special and
its length-1 run is left untouched. -/
theorem single_special_characterization_witness :
    isSingleU3Special u3FarOp = false ∧ processRun [u3Dec] [u3FarOp] = [u3FarOp] := by
  have h1 : atol < |(4 : ℚ)| := by
    rw [abs_of_pos]
    · norm_num [atol]
    · norm_num
  have h2 : atol < |(4 : ℚ) - npPiHalf| := by
    rw [abs_of_pos]
    · norm_num [atol, npPiHalf]
    · norm_num [npPiHalf]
  have hfar : isSingleU3Special u3FarOp = false := by
    simp [isSingleU3Special, firstParamNearSpecial, u3FarOp,
      decide_eq_false_iff_not, h1, h2]
    norm_num [atol]
  exact ⟨hfar,
    (single_special_characterization [u3Dec] u3FarOp).2 (by decide) hfar⟩

/-- C8: with an empty selected decomposer set the optimizer returns the
graph unchanged: no node is added, removed or substituted. -/
theorem empty_basis_noop {M : Type} [Monoid M] [DecidableEq M]
    (dag : List (Node M)) :
    optimize ([] : List (Decomposer M)) dag = dag := rfl

/-- C10: inside the acceptance test, the inspection of the chosen
candidate's first operation is reached only with the special flag set on a
length-1 run and the strictly-shorter disjunct false; then the chosen
candidate has at least one operation, so the indexing
`new_circ.data[0][0]` is in bounds, and the run's outcome is decided by
the first-operation-name test alone. -/
theorem candidate_head_access_safe {M : Type} [Monoid M] [DecidableEq M]
    (basis : List (Decomposer M)) (op : Op M)
    (c0 : Circuit M) (cs : List (Circuit M))
    (hc : candidates basis [op] = c0 :: cs)
    (hni : ¬(op.params ≠ [] ∧ op.mat = 1))
    (hs : isSingleU3Special op = true)
    (hnl : ¬ (minByLen c0 cs).length < ([op] : List (Op M)).length) :
    (minByLen c0 cs).head?.isSome = true ∧
      processRun basis [op] =
        if firstName (minByLen c0 cs) ≠ some "u3" then minByLen c0 cs
        else [op] := by
  have hlen : 1 ≤ (minByLen c0 cs).length := by
    simpa using not_lt.mp hnl
  constructor
  · cases hm : minByLen c0 cs with
    | nil =>
      rw [hm] at hlen
      simp at hlen
    | cons a l =>
      simp
  · simp only [processRun]
    rw [if_pos (by simp), if_neg hni, if_pos hs]
    unfold substitutionStep
    rw [hc]
    simp only [accepts_true_iff]
    have hiff : ((minByLen c0 cs).length < ([op] : List (Op M)).length ∨
        firstName (minByLen c0 cs) ≠ some "u3") ↔
        (firstName (minByLen c0 cs) ≠ some "u3") := by
      constructor
      · rintro (h | h)
        · exact absurd h hnl
        · exact h
      · exact Or.inr
    simp only [hiff]

/-- Witness for C10: a special u3 gate with a non-identity matrix and a
one-gate candidate of equal length. -/
theorem candidate_head_access_safe_witness :
    (minByLen (gDec (composedOp [u3NearOp])) []).head?.isSome = true ∧
      processRun [gDec] [u3NearOp] =
        if firstName (minByLen (gDec (composedOp [u3NearOp])) []) ≠ some "u3"
        then minByLen (gDec (composedOp [u3NearOp])) [] else [u3NearOp] :=
  candidate_head_access_safe [gDec] u3NearOp (gDec (composedOp [u3NearOp])) []
    rfl (by decide)
    (by norm_num [isSingleU3Special, firstParamNearSpecial, u3NearOp, atol])
    (by decide)

/-- C9 counterexample: the optimizer is not idempotent.  With the
`U3`-style decomposer (which always emits one u3 gate composing exactly to
its input), a two-gate run whose composed operator is the identity is
substituted by the single gate u3(0,0,0), whose matrix is exactly the
identity; a second pass removes that gate, so running twice differs from
running once. -/
theorem optimize_not_idempotent :
    optimize [u3Dec] (optimize [u3Dec] cexDag) ≠ optimize [u3Dec] cexDag := by
  decide

/-- C9 (amended): running the optimizer twice need not equal running it
once — a second pass can remove a single-gate parameterized identity
candidate introduced by the first pass; idempotence holds exactly on the
graphs the pass leaves fixed: if one pass leaves the graph unchanged, a
second identically configured pass returns the same result. -/
theorem optimize_idempotent_on_fixed_points {M : Type} [Monoid M] [DecidableEq M]
    (basis : List (Decomposer M)) (dag : List (Node M))
    (h : optimize basis dag = dag) :
    optimize basis (optimize basis dag) = optimize basis dag := by
  rw [h]
  exact h

/-- Witness for the amended C9: a one-gate parameterless run is left
untouched, so the pass fixes this graph and a second pass agrees. -/
theorem optimize_idempotent_on_fixed_points_witness :
    optimize [gDec] (optimize [gDec] [Node.oneQ xOp]) =
      optimize [gDec] [Node.oneQ xOp] :=
  optimize_idempotent_on_fixed_points [gDec] [Node.oneQ xOp] (by decide)
